import Mathlib

/-!
Verification development for the obsidian-web-blocker plugin
(src/main.ts, plus the logging variants under src/unnamed/).

The TypeScript source is shallowly embedded below.  Pure string
processing is modelled character-by-character on `List Char` (the
relevant inputs are ASCII); stateful methods of the plugin class are
modelled as pure functions from their inputs (settings fields, the
last-seen-value registry, the observed DOM elements) to their outputs
(new state, close-request counts, notice flags).  Host collaborators
(the WHATWG URL parser, the workspace leaf API, `Notice`) are modelled
at their interface boundary and are marked as such.
-/

/-! ## Generic character-list utilities -/

/-- Does the second list start with the first?  (Model of the prefix
test underlying JavaScript `String.prototype.includes`.) -/
def charsStartWith : List Char → List Char → Bool
  | [], _ => true
  | _ :: _, [] => false
  | a :: as, b :: bs => a == b && charsStartWith as bs

/-- Substring containment on character lists: `needle` occurs
contiguously inside the second argument. -/
def charsHaveSub (needle : List Char) : List Char → Bool
  | [] => needle.isEmpty
  | c :: rest => charsStartWith needle (c :: rest) || charsHaveSub needle rest

/-- Model of JavaScript `hay.includes(needle)` (substring test). -/
def hasSubstr (hay needle : String) : Bool :=
  charsHaveSub needle.data hay.data

/-- Model of JavaScript `s.toLowerCase()`, character by character
(ASCII inputs). -/
def toLowerStr (s : String) : String :=
  String.mk (s.data.map Char.toLower)

/-! ## Blocklist parsing (src/main.ts, `parseBlocklist`, lines 147-174) -/

/-- The separator characters of `parseBlocklist`: comma, tab, semicolon
(the character class of the regex `[,\t;]+`). -/
def isSepChar (c : Char) : Bool :=
  c == ',' || c == '\t' || c == ';'

/-- ASCII fragment of the whitespace removed by JavaScript
`String.prototype.trim` (the inputs here are ASCII). -/
def isTrimWs (c : Char) : Bool :=
  c == ' ' || c == '\t' || c == '\n' || c == '\r'

/-- Model of JavaScript `line.trim()` on character lists. -/
def trimChars (l : List Char) : List Char :=
  ((l.dropWhile isTrimWs).reverse.dropWhile isTrimWs).reverse

/-- Model of `content.split(/\r?\n/)`: a split point is a lone `'\n'`
or the pair `'\r','\n'`; a `'\r'` not followed by `'\n'` stays in the
line.  `acc` holds the characters of the current line, reversed. -/
def splitLinesAux (acc : List Char) : List Char → List (List Char)
  | [] => [acc.reverse]
  | '\n' :: rest => acc.reverse :: splitLinesAux [] rest
  | '\r' :: '\n' :: rest => acc.reverse :: splitLinesAux [] rest
  | c :: rest => splitLinesAux (c :: acc) rest

mutual

/-- Model of `line.split(/[,\t;]+/)` (split on a run of separator
characters), scanning state: inside a chunk, `acc` reversed so far. -/
def splitSepsAux (acc : List Char) : List Char → List (List Char)
  | [] => [acc.reverse]
  | c :: rest =>
    if isSepChar c then acc.reverse :: splitSepsGap rest
    else splitSepsAux (c :: acc) rest

/-- Scanning state of `splitSepsAux`: just after one or more separator
characters (a run of separators produces a single split point). -/
def splitSepsGap : List Char → List (List Char)
  | [] => [[]]
  | c :: rest =>
    if isSepChar c then splitSepsGap rest
    else splitSepsAux [c] rest

end

/-- The per-line step of `parseBlocklist`: skip blank lines; if the
line contains a separator, split on separator runs and keep the
trimmed non-empty parts; otherwise the whole trimmed line is one
keyword (src/main.ts lines 153-170). -/
def keywordsOfLine (line : List Char) : List (List Char) :=
  if trimChars line = [] then []
  else if line.any isSepChar then
    ((splitSepsAux [] line).map trimChars).filter (fun t => t ≠ [])
  else [trimChars line]

/-- Keep-first deduplication, the behaviour of `[...new Set(keywords)]`
(JavaScript `Set` iterates in insertion order). -/
def dedupKF {α : Type} [BEq α] (seen : List α) : List α → List α
  | [] => []
  | x :: xs => if seen.contains x then dedupKF seen xs else x :: dedupKF (x :: seen) xs

/-- `parseBlocklist` on character lists: split into lines, process each
line, deduplicate keeping first occurrences. -/
def parseChars (content : List Char) : List (List Char) :=
  dedupKF [] (((splitLinesAux [] content).map keywordsOfLine).flatten)

/-- src/main.ts `parseBlocklist(content)`: the keyword list parsed from
the raw blocklist text. -/
def parseBlocklist (s : String) : List String :=
  (parseChars s.data).map (fun l => String.mk l)

/-- Model of `allEntries.join('\n')` (src/main.ts line 125). -/
def joinNLStr : List String → String
  | [] => ""
  | [e] => e
  | e :: rest => e ++ "\n" ++ joinNLStr rest

/-- Character-level newline join, mirror of `joinNLStr`. -/
def joinNL : List (List Char) → List Char
  | [] => []
  | [e] => e
  | e :: rest => e ++ '\n' :: joinNL rest

/-- The shape invariant of every keyword produced by `parseBlocklist`:
non-empty, a fixed point of trimming, free of separator characters and
newlines, and not ending in a carriage return.  These facts make the
newline-join of keywords parse back to the same list. -/
def CleanEntry (k : List Char) : Prop :=
  k ≠ [] ∧ trimChars k = k ∧ (∀ c ∈ k, isSepChar c = false ∧ c ≠ '\n') ∧
    ∀ c, k.getLast? = some c → c ≠ '\r'

/-- src/main.ts `saveBlocklist` (lines 104-145), restricted to its
pure content-merging behaviour.  Inputs: the `nuclearActive` flag, the
baseline text `originalBlocklist` captured at nuclear activation, and
the proposed `blocklistContent`.  Output: the content that is
persisted, and whether the removal-rejection notice is shown.  (The
file write and the DOM update of the text area are outside the model;
the persisted keyword set is `parseBlocklist` of the first component.) -/
def saveBlocklist (nuclearActive : Bool) (originalBlocklist blocklistContent : String) :
    String × Bool :=
  if nuclearActive then
    let originalEntries := parseBlocklist originalBlocklist
    let currentEntries := parseBlocklist blocklistContent
    let missingEntries := originalEntries.filter (fun e => !(currentEntries.contains e))
    if missingEntries.length > 0 then
      let allEntries := dedupKF [] (originalEntries ++ currentEntries)
      (joinNLStr allEntries, true)
    else (blocklistContent, false)
  else (blocklistContent, false)

/-! ## Host collaborator: WHATWG URL / URLSearchParams

`new URL(url)` and `parsedUrl.searchParams` are host platform APIs.
They are modelled here at their interface boundary, restricted to the
ASCII address strings this plugin observes: a string parses when it
begins with an RFC 3986 scheme (`ALPHA *( ALPHA / DIGIT / "+" / "-" /
"." ) ":"`); the query is the part between the first `'?'` (before any
`'#'`) and the fragment, parsed as `application/x-www-form-urlencoded`:
split on `'&'`, empty pieces skipped, name/value at the first `'='`,
`'+'` replaced by space, percent-escapes decoded leniently (an invalid
escape is copied verbatim, as the URL parser never throws on one). -/

/-- Hexadecimal digit value of a character (code points written in
decimal: digits 48-57, lowercase 97-102, uppercase 65-70), `none` for
a non-hex digit. -/
def hexDigitVal (c : Char) : Option Nat :=
  let n := c.toNat
  if 48 ≤ n ∧ n ≤ 57 then some (n - 48)
  else if 97 ≤ n ∧ n ≤ 102 then some (n - 87)
  else if 65 ≤ n ∧ n ≤ 70 then some (n - 55)
  else none

/-- Lenient percent-decoding (URLSearchParams): an invalid escape
sequence is left verbatim.  ASCII model: a decoded byte is one char. -/
def pctDecodeLenient : List Char → List Char
  | [] => []
  | '%' :: h1 :: h2 :: rest =>
    match hexDigitVal h1, hexDigitVal h2 with
    | some a, some b => Char.ofNat (16 * a + b) :: pctDecodeLenient rest
    | _, _ => '%' :: pctDecodeLenient (h1 :: h2 :: rest)
  | c :: rest => c :: pctDecodeLenient rest

/-- Form decoding of one name or value: `'+'` to space, then lenient
percent-decoding. -/
def formDecode (l : List Char) : List Char :=
  pctDecodeLenient (l.map (fun c => if c == '+' then ' ' else c))

/-- Split a character list on every occurrence of `sep`. -/
def splitChAux (sep : Char) (acc : List Char) : List Char → List (List Char)
  | [] => [acc.reverse]
  | c :: rest =>
    if c == sep then acc.reverse :: splitChAux sep [] rest
    else splitChAux sep (c :: acc) rest

/-- Name/value pair of one `&`-separated piece (split at first `'='`). -/
def parsePair (l : List Char) : String × String :=
  (String.mk (formDecode (l.takeWhile (fun c => c != '='))),
   String.mk (formDecode ((l.dropWhile (fun c => c != '=')).drop 1)))

/-- The decoded name/value pairs of a raw query string, in order. -/
def parseQuery (q : List Char) : List (String × String) :=
  ((splitChAux '&' [] q).filter (fun s => s ≠ [])).map parsePair

/-- Scheme tail: alphanumeric or `+`/`-`/`.` characters up to a `':'`. -/
def schemeRest : List Char → Bool
  | [] => false
  | c :: rest => if c == ':' then true else (c.isAlphanum || c == '+' || c == '-' || c == '.') && schemeRest rest

/-- Does the string begin with a URL scheme? -/
def hasScheme : List Char → Bool
  | [] => false
  | c :: rest => c.isAlpha && schemeRest rest

/-- The raw query substring: after the first `'?'` that precedes any
`'#'`, up to the end of the string. -/
def extractQuery (l : List Char) : List Char :=
  ((l.takeWhile (fun c => c != '#')).dropWhile (fun c => c != '?')).drop 1

/-- Model of `new URL(url).searchParams`: `none` when `new URL` throws
(no scheme), otherwise the decoded name/value pairs of the query. -/
def parseURL (url : String) : Option (List (String × String)) :=
  if hasScheme url.data then some (parseQuery (extractQuery url.data)) else none

/-- `searchParams.has(name)` on the modelled pair list. -/
def spHas (sp : List (String × String)) (name : String) : Bool :=
  sp.any (fun kv => kv.1 == name)

/-- `searchParams.get(name)`: the value of the first pair with that
name, `none` when absent. -/
def spGet (sp : List (String × String)) (name : String) : Option String :=
  (sp.find? (fun kv => kv.1 == name)).map (fun kv => kv.2)

/-- Model of strict `decodeURIComponent` (src/main.ts lines 264, 284):
`none` models the thrown `URIError` on a malformed percent escape.
ASCII model: a decoded byte is one character. -/
def pctDecodeStrict : List Char → Option (List Char)
  | [] => some []
  | '%' :: h1 :: h2 :: rest =>
    match hexDigitVal h1, hexDigitVal h2 with
    | some a, some b => (pctDecodeStrict rest).map (fun t => Char.ofNat (16 * a + b) :: t)
    | _, _ => none
  | '%' :: _ :: [] => none
  | '%' :: [] => none
  | c :: rest => (pctDecodeStrict rest).map (fun t => c :: t)

/-- `decodeURIComponent` on strings; `none` models the `URIError`. -/
def decodeURIComponentOpt (s : String) : Option String :=
  (pctDecodeStrict s.data).map String.mk

/-- `s.replace(/\+/g, ' ')` (src/main.ts lines 265, 284). -/
def plusToSpace (s : String) : String :=
  String.mk (s.data.map (fun c => if c == '+' then ' ' else c))

/-- The value-decoding pipeline of `checkUrlForStrings` (src/main.ts
lines 264-266): `decodeURIComponent(v).replace(/\+/g, ' ').toLowerCase()`;
`none` when `decodeURIComponent` throws. -/
def decodeParamValue (v : String) : Option String :=
  (decodeURIComponentOpt v).map (fun d => toLowerStr (plusToSpace d))

/-! ## URL checking (src/main.ts, `checkUrlForStrings`, lines 235-301)

The workspace collaborator is modelled by `hasLeaf`: whether
`getMostRecentLeaf()` returns a leaf (taken as stable during one call).
The function's observable effect is the number of
`detachLeavesOfType` requests it makes, which the model returns. -/

/-- The fixed well-known search-parameter names (src/main.ts line 257). -/
def knownParams : List String :=
  ["q", "query", "search", "text", "term", "p", "keyword"]

/-- The raw-text stage (src/main.ts lines 241-250): some keyword is a
case-insensitive substring of the whole address string. -/
def rawMatches (kws : List String) (url : String) : Bool :=
  kws.any (fun s => hasSubstr (toLowerStr url) (toLowerStr s))

/-- Does the decoded value match some keyword (the inner keyword loop
of the query-parameter stages)?  `false` when decoding throws. -/
def valueMatches (kws : List String) (v : String) : Bool :=
  match decodeParamValue v with
  | some dv => kws.any (fun s => hasSubstr dv (toLowerStr s))
  | none => false

/-- The well-known-parameter loop (src/main.ts lines 259-280).
`some n` models leaving `checkUrlForStrings` with `n` close requests
so far (an inner `return`, or the exception a malformed value throws,
which the outer `try` catches); `none` models falling through to the
catch-all pass.  Note the `return` is inside `if (leaf)`, so with no
leaf a match does not end the loop. -/
def knownLoop (hasLeaf : Bool) (kws : List String) (sp : List (String × String)) :
    List String → Option Nat
  | [] => none
  | p :: rest =>
    match spGet sp p with
    | none => knownLoop hasLeaf kws sp rest
    | some v =>
      match decodeURIComponentOpt v with
      | none => some 0
      | some d =>
        if kws.any (fun s => hasSubstr (toLowerStr (plusToSpace d)) (toLowerStr s)) then
          if hasLeaf then some 1 else knownLoop hasLeaf kws sp rest
        else knownLoop hasLeaf kws sp rest

/-- The catch-all `searchParams.forEach` pass (src/main.ts lines
283-296).  The `return` after `detachLeavesOfType` only leaves the
callback for the current pair, so iteration continues with the next
parameter; a malformed value's exception ends the whole pass. -/
def forEachLoop (hasLeaf : Bool) (kws : List String) (closes : Nat) :
    List (String × String) → Nat
  | [] => closes
  | kv :: rest =>
    match decodeURIComponentOpt kv.2 with
    | none => closes
    | some d =>
      if kws.any (fun s => hasSubstr (toLowerStr (plusToSpace d)) (toLowerStr s)) then
        forEachLoop hasLeaf kws (closes + (if hasLeaf then 1 else 0)) rest
      else forEachLoop hasLeaf kws closes rest

/-- src/main.ts `checkUrlForStrings(url)` (lines 235-301): returns the
number of `detachLeavesOfType` close requests made for this address
string, given the `isEnabled` setting and leaf availability. -/
def checkUrlForStrings (isEnabled hasLeaf : Bool) (kws : List String) (url : String) : Nat :=
  if !isEnabled then 0
  else if rawMatches kws url then (if hasLeaf then 1 else 0)
  else
    match parseURL url with
    | none => 0
    | some sp =>
      match knownLoop hasLeaf kws sp knownParams with
      | some n => n
      | none => forEachLoop hasLeaf kws 0 sp

/-! ## Nuclear Mode (src/main.ts, lines 317-454) -/

/-- The persisted settings record (src/main.ts lines 4-11). -/
structure Settings where
  isEnabled : Bool
  blocklistContent : String
  nuclearModeEnabled : Bool
  nuclearStartTime : String
  nuclearEndTime : String
  nuclearActive : Bool
deriving DecidableEq, Repr

/-- Decimal value of a digit string (model of JavaScript `Number` on
the all-digit strings produced by a valid `HH:MM` time). -/
def decDigits (l : List Char) : Nat :=
  l.foldl (fun n c => 10 * n + (c.toNat - 48)) 0

/-- `time.split(':').map(Number)` followed by `h * 60 + m`
(src/main.ts lines 329-335): a time string to minutes since midnight.
Every caller first checks `isValidTimeFormat`, so only the
two-component digit shape is modelled; other shapes give 0 (in the
source they give `NaN`, which makes every comparison false). -/
def timeInMinutes (t : String) : Nat :=
  match splitChAux ':' [] t.data with
  | [h, m] => 60 * decDigits h + decDigits m
  | _ => 0

/-- The window-containment comparison of `checkNuclearStatus`
(src/main.ts lines 337-344), on minutes since midnight: a normal
window when start is before end, otherwise a window that wraps
across midnight. -/
def isWithinWindow (nowM startM endM : Nat) : Bool :=
  if startM < endM then
    decide (nowM ≥ startM) && decide (nowM < endM)
  else
    decide (nowM ≥ startM) || decide (nowM < endM)

/-- src/main.ts `checkNuclearStatus` (lines 320-345), with the wall
clock passed as minutes since midnight. -/
def checkNuclearStatus (s : Settings) (nowM : Nat) : Bool :=
  if !s.nuclearModeEnabled then false
  else isWithinWindow nowM (timeInMinutes s.nuclearStartTime) (timeInMinutes s.nuclearEndTime)

/-- src/main.ts `isValidTimeFormat` (lines 417-421): transcription of
the anchored regex `^([0-1]?[0-9]|2[0-3]):([0-5][0-9])$`.  The hour is
one digit, or two digits starting `0`/`1`, or `20`-`23`; the minute is
exactly two digits `00`-`59`. -/
def isValidTimeFormat (time : String) : Bool :=
  match time.data with
  | [h, c, m1, m2] =>
    h.isDigit && c == ':' && (decide ('0' ≤ m1) && decide (m1 ≤ '5')) && m2.isDigit
  | [h1, h2, c, m1, m2] =>
    (((h1 == '0' || h1 == '1') && h2.isDigit) ||
      (h1 == '2' && (decide ('0' ≤ h2) && decide (h2 ≤ '3')))) &&
    c == ':' && (decide ('0' ≤ m1) && decide (m1 ≤ '5')) && m2.isDigit
  | _ => false

/-- src/main.ts `activateNuclearSchedule` (lines 432-454), as a pure
function of the settings, the `originalBlocklist` instance field, and
the clock.  Result: the new settings, the new `originalBlocklist`
(snapshot taken by `enforceNuclearMode` when the window is already
open), and whether the time-format validation notice was shown.
Timers and the activation notice are outside the state model. -/
def activateNuclearSchedule (s : Settings) (orig : String) (nowM : Nat) :
    Settings × String × Bool :=
  if !(isValidTimeFormat s.nuclearStartTime) || !(isValidTimeFormat s.nuclearEndTime) then
    (s, orig, true)
  else
    let s1 := { s with nuclearModeEnabled := true }
    if checkNuclearStatus s1 nowM then
      let s2 := { s1 with nuclearActive := true }
      ({ s2 with isEnabled := true }, s2.blocklistContent, false)
    else (s1, orig, false)

/-! ## Address observation tick
(src/main.ts, `checkAllWebViewerAddresses`, lines 195-233; the same
loop appears in src/unnamed/part_000 and part_001) -/

/-- One observed `.webviewer-address` element: its structural identity
(`getElementPath`) and the value of its `input` child, `none` when the
element has no input. -/
structure AddressElem where
  elemId : String
  inputValue : Option String
deriving DecidableEq, Repr

/-- JavaScript `Map.get` on the insertion-ordered pair list. -/
def mapGet (m : List (String × String)) (k : String) : Option String :=
  match m with
  | [] => none
  | (k', v) :: rest => if k' == k then some v else mapGet rest k

/-- JavaScript `Map.set`: update in place, else append. -/
def mapSet (m : List (String × String)) (k v : String) : List (String × String) :=
  match m with
  | [] => [(k, v)]
  | (k', v') :: rest => if k' == k then (k, v) :: rest else (k', v') :: mapSet rest k v

/-- The per-element pass of the tick (src/main.ts lines 207-225):
collect the ids of elements that have an input, and record a changed
non-empty value in the registry.  (The `checkUrlForStrings` call made
for each recorded value is modelled separately.)  Returns the updated
registry and the collected `currentIds`. -/
def scanElems (reg : List (String × String)) (ids : List String) :
    List AddressElem → List (String × String) × List String
  | [] => (reg, ids)
  | e :: rest =>
    match e.inputValue with
    | none => scanElems reg ids rest
    | some v =>
      let ids' := if ids.contains e.elemId then ids else ids ++ [e.elemId]
      if v != "" && mapGet reg e.elemId != some v then
        scanElems (mapSet reg e.elemId v) ids' rest
      else scanElems reg ids' rest

/-- src/main.ts `checkAllWebViewerAddresses` (lines 195-233): the
registry (last-seen value per field identity) after one tick that
observes `elems`.  When no address elements are present the method
returns immediately (line 199-201), before the purge loop. -/
def checkAllWebViewerAddresses (reg : List (String × String)) (elems : List AddressElem) :
    List (String × String) :=
  if elems.isEmpty then reg
  else
    let (reg', currentIds) := scanElems reg [] elems
    reg'.filter (fun p => currentIds.contains p.1)

/-- Was the field identity `k` observed in this tick (an address
element with an input whose `getElementPath` is `k`)? -/
def observedIn (k : String) (elems : List AddressElem) : Bool :=
  elems.any (fun e => e.inputValue.isSome && e.elemId == k)

/-! ## Helper lemmas -/

theorem contains_iff_memKF {α : Type} [BEq α] [LawfulBEq α] (l : List α) (a : α) :
    l.contains a = true ↔ a ∈ l :=
  List.elem_iff

theorem mem_dedupKF {α : Type} [BEq α] [LawfulBEq α] (x : α) (seen l : List α) :
    x ∈ dedupKF seen l ↔ x ∈ l ∧ x ∉ seen := by
  induction l generalizing seen with
  | nil => simp [dedupKF]
  | cons y ys ih =>
    by_cases hy : seen.contains y = true
    · rw [dedupKF, if_pos hy, ih]
      have hys : y ∈ seen := (contains_iff_memKF seen y).mp hy
      constructor
      · rintro ⟨hx, hs⟩
        exact ⟨List.mem_cons_of_mem _ hx, hs⟩
      · rintro ⟨hx, hs⟩
        rcases List.mem_cons.mp hx with rfl | hx'
        · exact absurd hys hs
        · exact ⟨hx', hs⟩
    · rw [dedupKF, if_neg hy]
      have hys : y ∉ seen := fun hm => hy ((contains_iff_memKF seen y).mpr hm)
      constructor
      · intro hx
        rcases List.mem_cons.mp hx with rfl | hx'
        · exact ⟨List.mem_cons_self _ _, hys⟩
        · rcases (ih (y :: seen)).mp hx' with ⟨h1, h2⟩
          refine ⟨List.mem_cons_of_mem _ h1, fun hm => h2 (List.mem_cons_of_mem _ hm)⟩
      · rintro ⟨hx, hs⟩
        rcases List.mem_cons.mp hx with rfl | hx'
        · exact List.mem_cons_self _ _
        · by_cases hxy : x = y
          · subst hxy; exact List.mem_cons_self _ _
          · exact List.mem_cons_of_mem _ ((ih (y :: seen)).mpr
              ⟨hx', fun hm => (List.mem_cons.mp hm).elim hxy hs⟩)

theorem nodup_dedupKF {α : Type} [BEq α] [LawfulBEq α] (seen l : List α) :
    (dedupKF seen l).Nodup := by
  induction l generalizing seen with
  | nil => simp [dedupKF]
  | cons y ys ih =>
    by_cases hy : seen.contains y = true
    · rw [dedupKF, if_pos hy]; exact ih seen
    · rw [dedupKF, if_neg hy]
      refine List.nodup_cons.mpr ⟨fun hm => ?_, ih (y :: seen)⟩
      exact ((mem_dedupKF y (y :: seen) ys).mp hm).2 (List.mem_cons_self _ _)

theorem dedupKF_eq_self {α : Type} [BEq α] [LawfulBEq α] (seen l : List α)
    (hn : l.Nodup) (hd : ∀ x ∈ l, x ∉ seen) : dedupKF seen l = l := by
  induction l generalizing seen with
  | nil => rfl
  | cons y ys ih =>
    have hy : seen.contains y ≠ true := fun hc =>
      hd y (List.mem_cons_self _ _) ((contains_iff_memKF seen y).mp hc)
    rw [dedupKF, if_neg hy]
    have hn' := (List.nodup_cons.mp hn).2
    have hyn := (List.nodup_cons.mp hn).1
    congr 1
    refine ih (y :: seen) hn' (fun x hx hm => ?_)
    rcases List.mem_cons.mp hm with rfl | hm'
    · exact hyn hx
    · exact hd x (List.mem_cons_of_mem _ hx) hm'

theorem observedIn_cons (k : String) (e : AddressElem) (rest : List AddressElem) :
    observedIn k (e :: rest) =
      ((e.inputValue.isSome && e.elemId == k) || observedIn k rest) := by
  simp [observedIn, List.any_cons]

theorem scanElems_ids_mem (elems : List AddressElem) (reg : List (String × String))
    (ids : List String) (k : String) :
    k ∈ (scanElems reg ids elems).2 ↔ k ∈ ids ∨ observedIn k elems = true := by
  induction elems generalizing reg ids with
  | nil => simp [scanElems, observedIn]
  | cons e rest ih =>
    cases hv : e.inputValue with
    | none =>
      rw [scanElems, hv]
      rw [ih, observedIn_cons]
      simp [hv]
    | some v =>
      simp only [scanElems, hv]
      have hmem : ∀ reg',
          k ∈ (scanElems reg'
                (if ids.contains e.elemId then ids else ids ++ [e.elemId]) rest).2 ↔
            (k ∈ ids ∨ e.elemId = k) ∨ observedIn k rest = true := by
        intro reg'
        by_cases hc : ids.contains e.elemId = true
        · rw [if_pos hc, ih]
          have : e.elemId ∈ ids := (contains_iff_memKF ids e.elemId).mp hc
          constructor
          · rintro (h1 | h2)
            · exact Or.inl (Or.inl h1)
            · exact Or.inr h2
          · rintro ((h1 | rfl) | h2)
            · exact Or.inl h1
            · exact Or.inl this
            · exact Or.inr h2
        · rw [if_neg hc, ih]
          simp only [List.mem_append, List.mem_singleton]
          constructor
          · rintro ((h1 | rfl) | h2)
            · exact Or.inl (Or.inl h1)
            · exact Or.inl (Or.inr rfl)
            · exact Or.inr h2
          · rintro ((h1 | he) | h2)
            · exact Or.inl (Or.inl h1)
            · exact Or.inl (Or.inr he.symm)
            · exact Or.inr h2
      rw [observedIn_cons]
      by_cases hb : (v != "" && mapGet reg e.elemId != some v) = true
      · rw [if_pos hb, hmem]
        simp only [hv, Option.isSome_some, Bool.true_and, Bool.or_eq_true, beq_iff_eq]
        tauto
      · rw [if_neg hb, hmem]
        simp only [hv, Option.isSome_some, Bool.true_and, Bool.or_eq_true, beq_iff_eq]
        tauto

theorem mapGet_filter_not_mem (l : List (String × String)) (ids : List String) (k : String)
    (h : ids.contains k ≠ true) :
    mapGet (l.filter (fun p => ids.contains p.1)) k = none := by
  induction l with
  | nil => rfl
  | cons kv rest ih =>
    by_cases hk : ids.contains kv.1 = true
    · simp only [List.filter_cons, hk, if_true]
      rw [show (kv : String × String) = (kv.1, kv.2) from rfl, mapGet]
      have : (kv.1 == k) ≠ true := by
        intro hb
        exact h (by rwa [beq_iff_eq.mp hb] at hk)
      rw [if_neg this]
      exact ih
    · simp only [List.filter_cons, hk, if_false]
      exact ih

/-! ## Claim C3 (corrected): registry purge per observation tick -/

/-- C3 counterexample: a tick that observes zero fields (no
`.webviewer-address` elements) returns before the purge loop
(src/main.ts lines 199-201), so the stale entry for the unobserved
identity `"x"` survives the tick, contrary to the claim that every
entry whose identity was not observed this tick is purged. -/
theorem checkAll_emptyTick_keeps_stale :
    checkAllWebViewerAddresses [("x", "v")] [] = [("x", "v")] ∧
    observedIn "x" [] = false := by
  exact ⟨rfl, rfl⟩

/-- C3 amended: for every tick in which at least one address element is
present, the post-tick registry contains entries only for field
identities observed in that tick (entries for unobserved identities are
purged); and in every tick (including one with no address elements) an
identity absent from the registry and unobserved this tick is still
absent afterwards, so a purged entry cannot reappear unless the
identity is observed again. -/
theorem checkAll_registry_contract (reg : List (String × String))
    (elems : List AddressElem) (k : String) (p : String × String) :
    (elems ≠ [] → p ∈ checkAllWebViewerAddresses reg elems → observedIn p.1 elems = true) ∧
    (mapGet reg k = none → observedIn k elems = false →
      mapGet (checkAllWebViewerAddresses reg elems) k = none) := by
  constructor
  · intro hne hp
    rw [checkAllWebViewerAddresses] at hp
    rw [if_neg (by simpa using hne)] at hp
    have hpc := (List.mem_filter.mp hp).2
    have hkmem : p.1 ∈ (scanElems reg [] elems).2 :=
      (contains_iff_memKF _ _).mp hpc
    rcases (scanElems_ids_mem elems reg [] p.1).mp hkmem with h | h
    · exact absurd h (List.not_mem_nil _)
    · exact h
  · intro hnone hobs
    rw [checkAllWebViewerAddresses]
    by_cases hne : elems.isEmpty = true
    · rw [if_pos hne]; exact hnone
    · rw [if_neg hne]
      refine mapGet_filter_not_mem _ _ _ (fun hc => ?_)
      have hk := (contains_iff_memKF _ _).mp hc
      rcases (scanElems_ids_mem elems reg [] k).mp hk with h | h
      · exact absurd h (List.not_mem_nil _)
      · rw [h] at hobs; exact absurd hobs (by simp [h])

/-- C3 witness: a concrete tick.  The element `"a"` is observed and its
entry is in the post-tick registry; the absent, unobserved identity
`"b"` stays absent. -/
theorem checkAll_registry_contract_witness :
    observedIn ("a", "u").1 [⟨"a", some "u"⟩] = true ∧
    mapGet (checkAllWebViewerAddresses [("x", "v")] [⟨"a", some "u"⟩]) "b" = none :=
  ⟨(checkAll_registry_contract [("x", "v")] [⟨"a", some "u"⟩] "b" ("a", "u")).1
      (by decide) (by decide),
   (checkAll_registry_contract [("x", "v")] [⟨"a", some "u"⟩] "b" ("a", "u")).2
      (by decide) (by decide)⟩

/-! ## Claim C2 (confirmed): the schedule window containment test -/

/-- C2: over minutes since midnight, the containment test of the
Nuclear Mode state machine is `start <= now < end` for a normal window
(`start < end`) and `now >= start or now < end` for a window that wraps
midnight (`start >= end`); for the schedule (22:00, 05:00), 23:30 and
04:59 are inside, 05:00 and 21:59 outside. -/
theorem isWithinWindow_spec (nowM startM endM : Nat) :
    (startM < endM →
      (isWithinWindow nowM startM endM = true ↔ startM ≤ nowM ∧ nowM < endM)) ∧
    (startM ≥ endM →
      (isWithinWindow nowM startM endM = true ↔ nowM ≥ startM ∨ nowM < endM)) ∧
    isWithinWindow (23 * 60 + 30) (22 * 60) (5 * 60) = true ∧
    isWithinWindow (4 * 60 + 59) (22 * 60) (5 * 60) = true ∧
    isWithinWindow (5 * 60) (22 * 60) (5 * 60) = false ∧
    isWithinWindow (21 * 60 + 59) (22 * 60) (5 * 60) = false := by
  refine ⟨?_, ?_, by decide, by decide, by decide, by decide⟩
  · intro h
    rw [isWithinWindow, if_pos h]
    simp [ge_iff_le, and_comm]
  · intro h
    rw [isWithinWindow, if_neg (by omega)]
    simp

/-- C2 witness: the wrapped-window case of `isWithinWindow_spec` at
23:30 against the schedule (22:00, 05:00). -/
theorem isWithinWindow_spec_witness :
    isWithinWindow 1410 1320 300 = true ↔ 1410 ≥ 1320 ∨ 1410 < 300 :=
  (isWithinWindow_spec 1410 1320 300).2.1 (by decide)

/-! ## Claim C4 (code_bug): the catch-all parameter pass does not
short-circuit -/

/-- C4: evaluation of the code at the failing input.  Neither keyword
occurrence is visible in the raw address text, no well-known parameter
is present, and both query parameters `x` and `y` decode to a value
containing the keyword `zzz`.  The `return` after `detachLeavesOfType`
inside the `searchParams.forEach` callback (src/main.ts lines 283-296)
only leaves the callback for the current parameter, so iteration
continues and a second close request is made: the claim's
"requested exactly once and no further keywords or parameters are
checked" fails here. -/
theorem checkUrl_forEach_double_close :
    checkUrlForStrings true true ["zzz"] "https://a.com/?x=%7A%7A%7A&y=%7A%7A%7A" = 2 := by
  decide

/-! ## Claim C9 (confirmed): unparsable addresses -/

/-- C9: for an address string the URL parser rejects, the checker does
not fail: the result is exactly that of the raw case-insensitive
substring stage (a close request on a raw match, none otherwise), and
the structured query-parameter stages are skipped. -/
theorem checkUrl_unparsable (hasLeaf : Bool) (kws : List String) (url : String)
    (h : parseURL url = none) :
    checkUrlForStrings true hasLeaf kws url =
      if rawMatches kws url then (if hasLeaf then 1 else 0) else 0 := by
  by_cases hr : rawMatches kws url = true
  · rw [checkUrlForStrings, if_neg (by simp), if_pos hr, if_pos hr]
  · rw [checkUrlForStrings, if_neg (by simp), if_neg hr, if_neg hr, h]

/-- C9 witness: `"cat videos page"` has no scheme, so URL parsing
fails; the raw stage still matches the keyword `videos` and requests a
close. -/
theorem checkUrl_unparsable_witness :
    checkUrlForStrings true true ["videos"] "cat videos page" =
      if rawMatches ["videos"] "cat videos page" then (if (true : Bool) then 1 else 0) else 0 :=
  checkUrl_unparsable true ["videos"] "cat videos page" (by decide)

/-! ## Claim C10 (confirmed): disabled checker is a no-op -/

/-- C10: with `isEnabled` false, `checkUrlForStrings` returns at once
(src/main.ts line 238): no close request is made for any address and
any keyword list, and no state is touched (the model's only observable
output is the close-request count). -/
theorem checkUrl_disabled (hasLeaf : Bool) (kws : List String) (url : String) :
    checkUrlForStrings false hasLeaf kws url = 0 := rfl

/-! ## Claim C5 (corrected): schedule-time validation -/

theorem char_le_toNat {a b : Char} (h : a ≤ b) : a.toNat ≤ b.toNat := by
  simp [Char.le_def] at h
  exact_mod_cast h

theorem digit_toNat_bounds (c : Char) (h : c.isDigit = true) :
    48 ≤ c.toNat ∧ c.toNat ≤ 57 := by
  simp [Char.isDigit, Char.le_def] at h
  obtain ⟨h1, h2⟩ := h
  exact ⟨by exact_mod_cast h1, by exact_mod_cast h2⟩

theorem ne_colon_of_toNat_lt (c : Char) (h : c.toNat < 58) : (c == ':') = false := by
  refine beq_eq_false_iff_ne.mpr (fun hc => ?_)
  subst hc
  exact absurd h (by decide)

theorem splitColon_shape4 (hc m1 m2 : Char) (h1 : (hc == ':') = false)
    (h2 : (m1 == ':') = false) (h3 : (m2 == ':') = false) :
    splitChAux ':' [] [hc, ':', m1, m2] = [[hc], [m1, m2]] := by
  simp [splitChAux, h1, h2, h3]

theorem splitColon_shape5 (a b m1 m2 : Char) (h0 : (a == ':') = false)
    (h1 : (b == ':') = false) (h2 : (m1 == ':') = false) (h3 : (m2 == ':') = false) :
    splitChAux ':' [] [a, b, ':', m1, m2] = [[a, b], [m1, m2]] := by
  simp [splitChAux, h0, h1, h2, h3]

theorem decDigits_one (a : Char) : decDigits [a] = a.toNat - 48 := by
  simp [decDigits]

theorem decDigits_two (a b : Char) :
    decDigits [a, b] = 10 * (a.toNat - 48) + (b.toNat - 48) := by
  simp [decDigits]

/-- A time string accepted by `isValidTimeFormat` denotes a real wall
clock time: some hour at most 23 and minute at most 59. -/
theorem timeInMinutes_bounds (t : String) (ht : isValidTimeFormat t = true) :
    ∃ hh mm, hh ≤ 23 ∧ mm ≤ 59 ∧ timeInMinutes t = 60 * hh + mm := by
  unfold isValidTimeFormat at ht
  split at ht
  case h_1 hc c m1 m2 heq =>
    simp only [Bool.and_eq_true, decide_eq_true_eq, beq_iff_eq] at ht
    obtain ⟨⟨⟨hhd, rfl⟩, hm1a, hm1b⟩, hm2⟩ := ht
    obtain ⟨hh48, hh57⟩ := digit_toNat_bounds _ hhd
    obtain ⟨hm248, hm257⟩ := digit_toNat_bounds _ hm2
    have hm1l : 48 ≤ m1.toNat := by
      have := char_le_toNat hm1a
      simpa using this
    have hm1u : m1.toNat ≤ 53 := by
      have := char_le_toNat hm1b
      simpa using this
    refine ⟨hc.toNat - 48, 10 * (m1.toNat - 48) + (m2.toNat - 48), by omega, by omega, ?_⟩
    rw [timeInMinutes, heq,
      splitColon_shape4 _ _ _ (ne_colon_of_toNat_lt _ (by omega))
        (ne_colon_of_toNat_lt _ (by omega)) (ne_colon_of_toNat_lt _ (by omega))]
    simp [decDigits_one, decDigits_two]
  case h_2 a b c m1 m2 heq =>
    simp only [Bool.and_eq_true, Bool.or_eq_true, decide_eq_true_eq, beq_iff_eq] at ht
    obtain ⟨⟨⟨hhour, rfl⟩, hm1a, hm1b⟩, hm2⟩ := ht
    obtain ⟨hm248, hm257⟩ := digit_toNat_bounds _ hm2
    have hm1l : 48 ≤ m1.toNat := by
      have := char_le_toNat hm1a
      simpa using this
    have hm1u : m1.toNat ≤ 53 := by
      have := char_le_toNat hm1b
      simpa using this
    have hb : 48 ≤ b.toNat ∧ b.toNat ≤ 57 ∧ 10 * (a.toNat - 48) + (b.toNat - 48) ≤ 23 ∧
        a.toNat < 58 := by
      rcases hhour with ⟨ha01, hbd⟩ | ⟨rfl, hb0, hb3⟩
      · obtain ⟨hb48, hb57⟩ := digit_toNat_bounds _ hbd
        rcases ha01 with rfl | rfl
        · have ha : ('0' : Char).toNat = 48 := rfl
          exact ⟨hb48, hb57, by omega, by decide⟩
        · have ha : ('1' : Char).toNat = 49 := rfl
          exact ⟨hb48, hb57, by omega, by decide⟩
      · have hb0n : 48 ≤ b.toNat := by
          have := char_le_toNat hb0
          simpa using this
        have hb3n : b.toNat ≤ 51 := by
          have := char_le_toNat hb3
          simpa using this
        have ha : ('2' : Char).toNat = 50 := rfl
        exact ⟨by omega, by omega, by omega, by decide⟩
    obtain ⟨hb48, hb57, hle, ha58⟩ := hb
    refine ⟨10 * (a.toNat - 48) + (b.toNat - 48),
      10 * (m1.toNat - 48) + (m2.toNat - 48), hle, by omega, ?_⟩
    rw [timeInMinutes, heq,
      splitColon_shape5 _ _ _ _ (ne_colon_of_toNat_lt _ ha58)
        (ne_colon_of_toNat_lt _ (by omega)) (ne_colon_of_toNat_lt _ (by omega))
        (ne_colon_of_toNat_lt _ (by omega))]
    simp [decDigits_two]
  case h_3 => exact absurd ht (by simp)

/-- C5 counterexample: the regex `^([0-1]?[0-9]|2[0-3]):([0-5][0-9])$`
accepts a one-digit hour, so `"9:00"` is valid and activation with it
proceeds (the `nuclearModeEnabled` flag flips to true and no validation
notice is shown), contrary to the claim that `"9:00"` without a leading
zero is refused with the settings state unchanged. -/
theorem activateNuclearSchedule_oneDigitHour :
    isValidTimeFormat "9:00" = true ∧
    activateNuclearSchedule ⟨true, "x", false, "9:00", "23:00", false⟩ "o" 100 =
      (⟨true, "x", true, "9:00", "23:00", false⟩, "o", false) := by
  exact ⟨by decide, by decide⟩

/-- C5 amended: activation requires both schedule strings to match the
anchored pattern `([0-1]?[0-9]|2[0-3]):([0-5][0-9])` — one- or
two-digit hour 0-23, exactly-two-digit minute 00-59; if either fails,
activation is refused with a validation notice and the settings state
(every field) and baseline snapshot are left unchanged.  `"25:61"` is
refused; `"9:00"` (no leading zero) is accepted.  A valid time denotes
an hour at most 23 and a minute at most 59. -/
theorem activateNuclearSchedule_validation (s : Settings) (orig : String) (nowM : Nat)
    (t : String)
    (hbad : ¬(isValidTimeFormat s.nuclearStartTime = true ∧
      isValidTimeFormat s.nuclearEndTime = true))
    (ht : isValidTimeFormat t = true) :
    activateNuclearSchedule s orig nowM = (s, orig, true) ∧
    (∃ hh mm, hh ≤ 23 ∧ mm ≤ 59 ∧ timeInMinutes t = 60 * hh + mm) ∧
    isValidTimeFormat "25:61" = false := by
  refine ⟨?_, timeInMinutes_bounds t ht, by decide⟩
  have hcond : (!(isValidTimeFormat s.nuclearStartTime) ||
      !(isValidTimeFormat s.nuclearEndTime)) = true := by
    cases hx : isValidTimeFormat s.nuclearStartTime
    · simp
    · cases hy : isValidTimeFormat s.nuclearEndTime
      · simp
      · exact absurd ⟨hx, hy⟩ hbad
  rw [activateNuclearSchedule, if_pos hcond]

/-- C5 witness: with the malformed end time `"25:61"` activation is
refused and nothing changes; `"9:00"` denotes 9 hours 0 minutes. -/
theorem activateNuclearSchedule_validation_witness :
    activateNuclearSchedule ⟨true, "x", false, "09:00", "25:61", false⟩ "o" 0 =
      (⟨true, "x", false, "09:00", "25:61", false⟩, "o", true) ∧
    (∃ hh mm, hh ≤ 23 ∧ mm ≤ 59 ∧ timeInMinutes "9:00" = 60 * hh + mm) ∧
    isValidTimeFormat "25:61" = false :=
  activateNuclearSchedule_validation ⟨true, "x", false, "09:00", "25:61", false⟩ "o" 0
    "9:00" (by decide) (by decide)


/-! ## Lemmas on trimming, towards the parse round trip -/

theorem trimChars_eq_rdrop (l : List Char) :
    trimChars l = List.rdropWhile isTrimWs (List.dropWhile isTrimWs l) := rfl

theorem head?_dropWhile_false {α : Type} (p : α → Bool) (l : List α) (c : α)
    (h : (l.dropWhile p).head? = some c) : p c = false := by
  induction l with
  | nil => simp [List.dropWhile] at h
  | cons a as ih =>
    rw [List.dropWhile_cons] at h
    by_cases hp : p a = true
    · rw [if_pos hp] at h; exact ih h
    · rw [if_neg hp] at h
      simp at h
      subst h
      exact Bool.of_not_eq_true hp

theorem dropWhile_eq_self_of_head {α : Type} (p : α → Bool) (l : List α)
    (h : ∀ c, l.head? = some c → p c = false) : l.dropWhile p = l := by
  cases l with
  | nil => rfl
  | cons a as =>
    have ha : p a = false := h a rfl
    rw [List.dropWhile_cons, ha]
    simp

theorem trimChars_idem (l : List Char) : trimChars (trimChars l) = trimChars l := by
  rw [trimChars_eq_rdrop, trimChars_eq_rdrop]
  have hinner : List.dropWhile isTrimWs (List.rdropWhile isTrimWs (List.dropWhile isTrimWs l))
      = List.rdropWhile isTrimWs (List.dropWhile isTrimWs l) := by
    apply dropWhile_eq_self_of_head
    intro c hc
    obtain ⟨t, ht⟩ := List.rdropWhile_prefix isTrimWs (List.dropWhile isTrimWs l)
    have hA : (List.dropWhile isTrimWs l).head? = some c := by
      rcases hrd : List.rdropWhile isTrimWs (List.dropWhile isTrimWs l) with _ | ⟨x, xs⟩
      · rw [hrd] at hc; exact absurd hc (by simp)
      · rw [hrd] at hc
        rw [← ht, hrd]
        simpa using hc
    exact head?_dropWhile_false _ _ _ hA
  rw [hinner, List.rdropWhile_idempotent]

theorem trimChars_last_not_ws (l : List Char) (c : Char)
    (h : (trimChars l).getLast? = some c) : isTrimWs c = false := by
  rw [trimChars_eq_rdrop] at h
  have hne : List.rdropWhile isTrimWs (List.dropWhile isTrimWs l) ≠ [] := by
    intro he; rw [he] at h; simp at h
  have hlast := List.rdropWhile_last_not isTrimWs (List.dropWhile isTrimWs l) hne
  rw [List.getLast?_eq_getLast _ hne] at h
  simp at h
  rw [← h]
  exact Bool.of_not_eq_true hlast

theorem mem_trimChars (l : List Char) (c : Char) (h : c ∈ trimChars l) : c ∈ l := by
  rw [trimChars_eq_rdrop] at h
  have h1 : c ∈ List.dropWhile isTrimWs l :=
    (List.rdropWhile_prefix isTrimWs _).sublist.mem h
  exact (List.dropWhile_sublist _).mem h1

/-! ## Lemmas on line splitting -/

theorem splitLinesAux_nil (acc : List Char) : splitLinesAux acc [] = [acc.reverse] := rfl

theorem splitLinesAux_nl (acc rest : List Char) :
    splitLinesAux acc ('\n' :: rest) = acc.reverse :: splitLinesAux [] rest := rfl

theorem splitLinesAux_crnl (acc rest : List Char) :
    splitLinesAux acc ('\r' :: '\n' :: rest) = acc.reverse :: splitLinesAux [] rest := rfl

theorem splitLinesAux_other (acc : List Char) (c : Char) (rest : List Char)
    (hc : c ≠ '\n') (hcr : ¬(c = '\r' ∧ rest.head? = some '\n')) :
    splitLinesAux acc (c :: rest) = splitLinesAux (c :: acc) rest := by
  rw [splitLinesAux.eq_def]
  split
  · rename_i heq; exact absurd heq (by simp)
  · rename_i heq
    rw [List.cons_eq_cons] at heq
    exact absurd heq.1 hc
  · rename_i heq
    rw [List.cons_eq_cons] at heq
    refine absurd ⟨heq.1, ?_⟩ hcr
    rw [heq.2]
    rfl
  · rename_i heq h1 h2
    injection h2 with e1 e2
    rw [e1, e2]

theorem splitLinesAux_no_nl (acc l : List Char) :
    '\n' ∉ acc → ∀ k ∈ splitLinesAux acc l, '\n' ∉ k := by
  induction acc, l using splitLinesAux.induct with
  | case1 acc =>
    intro hacc k hk
    rw [splitLinesAux_nil] at hk
    simp at hk
    subst hk
    simpa using hacc
  | case2 acc rest ih =>
    intro hacc k hk
    rw [splitLinesAux_nl] at hk
    rcases List.mem_cons.mp hk with rfl | hk'
    · simpa using hacc
    · exact ih (by simp) k hk'
  | case3 acc rest ih =>
    intro hacc k hk
    rw [splitLinesAux_crnl] at hk
    rcases List.mem_cons.mp hk with rfl | hk'
    · simpa using hacc
    · exact ih (by simp) k hk'
  | case4 acc c rest h1 h2 ih =>
    intro hacc k hk
    rw [splitLinesAux_other acc c rest (fun he => h1 he) ?hcr] at hk
    case hcr =>
      rintro ⟨rfl, hh⟩
      rcases rest with _ | ⟨d, rest'⟩
      · simp at hh
      · simp at hh
        exact h2 rest' rfl (by rw [hh])
    refine ih ?_ k hk
    intro hmem
    rcases List.mem_cons.mp hmem with rfl | hmem'
    · exact h1 rfl
    · exact hacc hmem'

theorem splitLinesAux_no_nl_eq (l : List Char) (h : '\n' ∉ l) :
    ∀ acc, splitLinesAux acc l = [acc.reverse ++ l] := by
  induction l with
  | nil => intro acc; rw [splitLinesAux_nil]; simp
  | cons c rest ih =>
    intro acc
    have hc : c ≠ '\n' := fun he => h (he ▸ List.mem_cons_self _ _)
    have hrest : '\n' ∉ rest := fun hm => h (List.mem_cons_of_mem _ hm)
    rw [splitLinesAux_other acc c rest hc ?hcr]
    case hcr =>
      rintro ⟨rfl, hh⟩
      rcases rest with _ | ⟨d, rest'⟩
      · simp at hh
      · simp at hh
        exact hrest (hh ▸ List.mem_cons_self _ _)
    rw [ih hrest (c :: acc)]
    simp

theorem splitLinesAux_append_nl (l : List Char) (hnl : '\n' ∉ l)
    (hlast : l.getLast? ≠ some '\r') :
    ∀ acc rest, splitLinesAux acc (l ++ '\n' :: rest) =
      (acc.reverse ++ l) :: splitLinesAux [] rest := by
  induction l with
  | nil => intro acc rest; rw [List.nil_append, splitLinesAux_nl]; simp
  | cons c l' ih =>
    intro acc rest
    have hc : c ≠ '\n' := fun he => hnl (he ▸ List.mem_cons_self _ _)
    have hl' : '\n' ∉ l' := fun hm => hnl (List.mem_cons_of_mem _ hm)
    rw [List.cons_append, splitLinesAux_other acc c (l' ++ '\n' :: rest) hc ?hcr]
    case hcr =>
      rintro ⟨rfl, hh⟩
      rcases l' with _ | ⟨d, l''⟩
      · exact hlast (by simp)
      · simp at hh
        exact hl' (hh ▸ List.mem_cons_self _ _)
    have hlast' : l'.getLast? ≠ some '\r' := by
      rcases l' with _ | ⟨d, l''⟩
      · simp
      · rwa [List.getLast?_cons_cons] at hlast
    rw [ih hl' hlast' (c :: acc) rest]
    simp

/-! ## Lemmas on separator splitting -/

theorem splitSeps_chars (l : List Char) :
    (∀ acc, (∀ c ∈ acc, isSepChar c = false) →
      ∀ part ∈ splitSepsAux acc l, ∀ c ∈ part, isSepChar c = false ∧ (c ∈ acc ∨ c ∈ l)) ∧
    (∀ part ∈ splitSepsGap l, ∀ c ∈ part, isSepChar c = false ∧ c ∈ l) := by
  induction l with
  | nil =>
    constructor
    · intro acc hacc part hpart c hc
      rw [splitSepsAux] at hpart
      simp at hpart
      subst hpart
      rw [List.mem_reverse] at hc
      exact ⟨hacc c hc, Or.inl hc⟩
    · intro part hpart c hc
      rw [splitSepsGap] at hpart
      simp at hpart
      subst hpart
      simp at hc
  | cons d rest ih =>
    constructor
    · intro acc hacc part hpart c hc
      rw [splitSepsAux] at hpart
      by_cases hd : isSepChar d = true
      · rw [if_pos hd] at hpart
        rcases List.mem_cons.mp hpart with rfl | hpart'
        · rw [List.mem_reverse] at hc
          exact ⟨hacc c hc, Or.inl hc⟩
        · obtain ⟨h1, h2⟩ := ih.2 part hpart' c hc
          exact ⟨h1, Or.inr (List.mem_cons_of_mem _ h2)⟩
      · rw [if_neg hd] at hpart
        have haccd : ∀ c ∈ d :: acc, isSepChar c = false := by
          intro c' hc'
          rcases List.mem_cons.mp hc' with rfl | hc''
          · exact Bool.of_not_eq_true hd
          · exact hacc c' hc''
        obtain ⟨h1, h2⟩ := ih.1 (d :: acc) haccd part hpart c hc
        rcases h2 with hmem | hmem
        · rcases List.mem_cons.mp hmem with rfl | hmem'
          · exact ⟨h1, Or.inr (List.mem_cons_self _ _)⟩
          · exact ⟨h1, Or.inl hmem'⟩
        · exact ⟨h1, Or.inr (List.mem_cons_of_mem _ hmem)⟩
    · intro part hpart c hc
      rw [splitSepsGap] at hpart
      by_cases hd : isSepChar d = true
      · rw [if_pos hd] at hpart
        obtain ⟨h1, h2⟩ := ih.2 part hpart c hc
        exact ⟨h1, List.mem_cons_of_mem _ h2⟩
      · rw [if_neg hd] at hpart
        have haccd : ∀ c' ∈ [d], isSepChar c' = false := by
          intro c' hc'
          simp at hc'
          subst hc'
          exact Bool.of_not_eq_true hd
        obtain ⟨h1, h2⟩ := ih.1 [d] haccd part hpart c hc
        rcases h2 with hmem | hmem
        · simp at hmem
          subst hmem
          exact ⟨h1, List.mem_cons_self _ _⟩
        · exact ⟨h1, List.mem_cons_of_mem _ hmem⟩

/-! ## Every parsed keyword is clean -/

theorem keywordsOfLine_clean (line : List Char) (hnl : '\n' ∉ line) :
    ∀ k ∈ keywordsOfLine line, CleanEntry k := by
  intro k hk
  rw [keywordsOfLine] at hk
  by_cases hblank : trimChars line = []
  · rw [if_pos hblank] at hk
    simp at hk
  · rw [if_neg hblank] at hk
    by_cases hsep : line.any isSepChar = true
    · rw [if_pos hsep] at hk
      obtain ⟨hkm, hkne⟩ := List.mem_filter.mp hk
      obtain ⟨part, hpart, rfl⟩ := List.mem_map.mp hkm
      have hne : trimChars part ≠ [] := by simpa using hkne
      refine ⟨hne, trimChars_idem part, ?_, ?_⟩
      · intro c hc
        have hcp := mem_trimChars part c hc
        obtain ⟨h1, h2⟩ := (splitSeps_chars line).1 [] (by simp) part hpart c hcp
        rcases h2 with h2 | h2
        · simp at h2
        · exact ⟨h1, fun he => hnl (he ▸ h2)⟩
      · intro c hc
        have := trimChars_last_not_ws part c hc
        intro he
        subst he
        simp [isTrimWs] at this
    · rw [if_neg hsep] at hk
      simp at hk
      subst hk
      refine ⟨hblank, trimChars_idem line, ?_, ?_⟩
      · intro c hc
        have hcl := mem_trimChars line c hc
        have hns : isSepChar c = false := by
          by_contra hcc
          exact hsep (List.any_eq_true.mpr ⟨c, hcl, Bool.of_not_eq_false hcc⟩)
        exact ⟨hns, fun he => hnl (he ▸ hcl)⟩
      · intro c hc
        have := trimChars_last_not_ws line c hc
        intro he
        subst he
        simp [isTrimWs] at this

theorem parseChars_clean (content : List Char) :
    ∀ k ∈ parseChars content, CleanEntry k := by
  intro k hk
  rw [parseChars] at hk
  have hk2 := ((mem_dedupKF k [] _).mp hk).1
  rw [List.mem_flatten] at hk2
  obtain ⟨ks, hks, hkm⟩ := hk2
  obtain ⟨line, hline, rfl⟩ := List.mem_map.mp hks
  have hnl : '\n' ∉ line := splitLinesAux_no_nl [] content (by simp) line hline
  exact keywordsOfLine_clean line hnl k hkm

theorem parseBlocklist_clean (s : String) :
    ∀ k ∈ parseBlocklist s, CleanEntry k.data := by
  intro k hk
  rw [parseBlocklist] at hk
  obtain ⟨l, hl, rfl⟩ := List.mem_map.mp hk
  exact parseChars_clean s.data l hl

theorem parseBlocklist_nodup (s : String) : (parseBlocklist s).Nodup := by
  rw [parseBlocklist]
  refine List.Nodup.map (fun a b hab => ?_) (nodup_dedupKF [] _)
  exact congrArg String.data hab

/-! ## The round trip: parsing the newline-join of clean entries -/

theorem keywordsOfLine_of_clean (k : List Char) (h : CleanEntry k) :
    keywordsOfLine k = [k] := by
  obtain ⟨hne, htrim, hchars, _⟩ := h
  rw [keywordsOfLine, if_neg (by rw [htrim]; exact hne), if_neg, htrim]
  intro hany
  obtain ⟨c, hc, hsc⟩ := List.any_eq_true.mp hany
  rw [(hchars c hc).1] at hsc
  exact Bool.false_ne_true hsc

theorem splitLines_joinNL (L : List (List Char)) (hclean : ∀ k ∈ L, CleanEntry k)
    (hne : L ≠ []) : splitLinesAux [] (joinNL L) = L := by
  induction L with
  | nil => exact absurd rfl hne
  | cons e L' ih =>
    have he := hclean e (List.mem_cons_self _ _)
    have henl : '\n' ∉ e := fun hm => (he.2.2.1 '\n' hm).2 rfl
    rcases L' with _ | ⟨f, L''⟩
    · rw [joinNL, splitLinesAux_no_nl_eq e henl []]
      simp
    · rw [show joinNL (e :: f :: L'') = e ++ '\n' :: joinNL (f :: L'') from rfl]
      have helast : e.getLast? ≠ some '\r' := by
        intro hl
        exact he.2.2.2 '\r' hl rfl
      rw [splitLinesAux_append_nl e henl helast [] (joinNL (f :: L''))]
      rw [ih (fun k hk => hclean k (List.mem_cons_of_mem _ hk)) (by simp)]
      simp

theorem flatten_map_singleton {α : Type} (L : List α) :
    (L.map (fun k => [k])).flatten = L := by
  induction L with
  | nil => rfl
  | cons e L' ih => simp [ih]

theorem parseChars_joinNL (L : List (List Char)) (hclean : ∀ k ∈ L, CleanEntry k)
    (hnd : L.Nodup) (hne : L ≠ []) : parseChars (joinNL L) = L := by
  rw [parseChars, splitLines_joinNL L hclean hne]
  have hmap : L.map keywordsOfLine = L.map (fun k => [k]) := by
    refine List.map_congr_left (fun k hk => ?_)
    exact keywordsOfLine_of_clean k (hclean k hk)
  rw [hmap]
  rw [flatten_map_singleton L]
  exact dedupKF_eq_self [] L hnd (by simp)

theorem joinNLStr_data (L : List String) :
    (joinNLStr L).data = joinNL (L.map String.data) := by
  induction L with
  | nil => rfl
  | cons e L' ih =>
    rcases L' with _ | ⟨f, L''⟩
    · rfl
    · rw [show joinNLStr (e :: f :: L'') = e ++ "\n" ++ joinNLStr (f :: L'') from rfl]
      rw [show (e ++ "\n" ++ joinNLStr (f :: L'')).data
          = e.data ++ '\n' :: (joinNLStr (f :: L'')).data from by simp]
      rw [ih]
      rfl

theorem parseBlocklist_joinNLStr (L : List String)
    (hclean : ∀ k ∈ L, CleanEntry k.data) (hnd : L.Nodup) (hne : L ≠ []) :
    parseBlocklist (joinNLStr L) = L := by
  rw [parseBlocklist, joinNLStr_data]
  have hc : ∀ k ∈ L.map String.data, CleanEntry k := by
    intro k hk
    obtain ⟨s, hs, rfl⟩ := List.mem_map.mp hk
    exact hclean s hs
  have hn : (L.map String.data).Nodup :=
    List.Nodup.map (fun a b hab => by
      have : (String.mk a.data) = (String.mk b.data) := by rw [hab]
      exact this) hnd
  rw [parseChars_joinNL (L.map String.data) hc hn (by simpa using hne)]
  rw [List.map_map]
  have : (fun l => String.mk l) ∘ String.data = id := by
    funext s
    rfl
  rw [this, List.map_id]

/-! ## Claim C7 (corrected): the shape of parsed blocklists -/

/-- C7 counterexample: `parseBlocklist` never lower-cases (matching is
case-insensitive later, at lookup time), so the claim that the parsed
collection consists of lowercase strings fails on the input
`"YouTube"`, whose single parsed entry is not its own lower-casing. -/
theorem parseBlocklist_not_lowercased :
    parseBlocklist "YouTube" = ["YouTube"] ∧ toLowerStr "YouTube" ≠ "YouTube" := by
  exact ⟨by decide, by decide⟩

/-- C7 amended: `parseBlocklist` returns a duplicate-free collection of
trimmed, non-empty strings (in their original case), built by splitting
on line breaks and, for separator-bearing lines, on runs of comma, tab
or semicolon; the example input parses to exactly
youtube, twitter, instagram, facebook, reddit. -/
theorem parseBlocklist_shape :
    (∀ s : String, (parseBlocklist s).Nodup ∧
      ∀ k ∈ parseBlocklist s, k ≠ "" ∧ trimChars k.data = k.data) ∧
    parseBlocklist "youtube\ntwitter, instagram\nfacebook;reddit" =
      ["youtube", "twitter", "instagram", "facebook", "reddit"] := by
  refine ⟨fun s => ⟨parseBlocklist_nodup s, fun k hk => ?_⟩, by decide⟩
  obtain ⟨hne, htrim, _, _⟩ := parseBlocklist_clean s k hk
  refine ⟨fun he => hne ?_, htrim⟩
  rw [he]

/-- C7 witness: the amended shape facts at the example input and its
entry `"twitter"`. -/
theorem parseBlocklist_shape_witness :
    (parseBlocklist "youtube\ntwitter, instagram\nfacebook;reddit").Nodup ∧
    ("twitter" ≠ "" ∧ trimChars "twitter".data = "twitter".data) :=
  ⟨(parseBlocklist_shape.1 "youtube\ntwitter, instagram\nfacebook;reddit").1,
   (parseBlocklist_shape.1 "youtube\ntwitter, instagram\nfacebook;reddit").2
     "twitter" (by decide)⟩

/-! ## Claim C8 (confirmed): parse is idempotent under newline-join -/

/-- C8: for every text, parsing the newline-join of the parsed keyword
list gives the same keyword set (here even the same list, so a
fortiori the same order-independent set). -/
theorem parseBlocklist_idempotent (x : String) :
    (parseBlocklist (joinNLStr (parseBlocklist x))).toFinset =
      (parseBlocklist x).toFinset := by
  rcases hL : parseBlocklist x with _ | ⟨e, es⟩
  · rw [show joinNLStr [] = "" from rfl]
    rfl
  · rw [← hL, parseBlocklist_joinNLStr (parseBlocklist x) (parseBlocklist_clean x)
      (parseBlocklist_nodup x) (by rw [hL]; exact List.cons_ne_nil _ _)]

/-! ## Claim C1 (confirmed): the nuclear append-only floor -/

/-- C1: while Nuclear Mode is active, a proposed blocklist text that
drops some baseline entry is replaced before persisting: the persisted
keyword set is exactly the union of the baseline set and the proposed
set, and the rejection notice is shown. -/
theorem saveBlocklist_nuclear_union (orig content : String)
    (hmiss : ∃ e ∈ parseBlocklist orig, e ∉ parseBlocklist content) :
    (parseBlocklist (saveBlocklist true orig content).1).toFinset =
      (parseBlocklist orig).toFinset ∪ (parseBlocklist content).toFinset ∧
    (saveBlocklist true orig content).2 = true := by
  obtain ⟨e, he, hen⟩ := hmiss
  have hfilter : e ∈ (parseBlocklist orig).filter
      (fun a => !((parseBlocklist content).contains a)) := by
    refine List.mem_filter.mpr ⟨he, ?_⟩
    rw [Bool.not_eq_true']
    exact Bool.of_not_eq_true (fun hc => hen ((contains_iff_memKF _ _).mp hc))
  have hlen : ((parseBlocklist orig).filter
      (fun a => !((parseBlocklist content).contains a))).length > 0 :=
    List.length_pos.mpr (List.ne_nil_of_mem hfilter)
  have hall : ∀ k ∈ dedupKF [] (parseBlocklist orig ++ parseBlocklist content),
      CleanEntry k.data := by
    intro k hk
    rcases List.mem_append.mp ((mem_dedupKF k [] _).mp hk).1 with hm | hm
    · exact parseBlocklist_clean orig k hm
    · exact parseBlocklist_clean content k hm
  have hnd := nodup_dedupKF ([] : List String)
      (parseBlocklist orig ++ parseBlocklist content)
  have hne : dedupKF [] (parseBlocklist orig ++ parseBlocklist content) ≠ [] := by
    intro hnil
    have : e ∈ dedupKF [] (parseBlocklist orig ++ parseBlocklist content) :=
      (mem_dedupKF e [] _).mpr ⟨List.mem_append.mpr (Or.inl he), by simp⟩
    rw [hnil] at this
    exact List.not_mem_nil e this
  rw [saveBlocklist, if_pos rfl]
  simp only [hlen, if_pos]
  constructor
  · rw [parseBlocklist_joinNLStr _ hall hnd hne]
    ext a
    simp only [List.mem_toFinset, Finset.mem_union]
    rw [mem_dedupKF]
    simp [List.mem_append]
  · trivial

/-- C1 witness: baseline `a,b,c` with proposal `a,c,d` (entry `b`
dropped) persists the union `{a,b,c,d}` and shows the notice. -/
theorem saveBlocklist_nuclear_union_witness :
    (parseBlocklist (saveBlocklist true "a\nb\nc" "a\nc\nd").1).toFinset =
      (parseBlocklist "a\nb\nc").toFinset ∪ (parseBlocklist "a\nc\nd").toFinset ∧
    (saveBlocklist true "a\nb\nc" "a\nc\nd").2 = true :=
  saveBlocklist_nuclear_union "a\nb\nc" "a\nc\nd" (by decide)

/-! ## Lemmas on the well-known-parameter stage -/

theorem spGet_mem (sp : List (String × String)) (p v : String)
    (h : spGet sp p = some v) : (p, v) ∈ sp := by
  rw [spGet] at h
  cases hf : sp.find? (fun kv => kv.1 == p) with
  | none => rw [hf] at h; cases h
  | some kv =>
    rw [hf] at h
    simp at h
    have hmem := List.mem_of_find?_eq_some hf
    have hpred := List.find?_some hf
    simp at hpred
    have hkv : kv = (p, v) := by
      rcases kv with ⟨k1, k2⟩
      simp_all
    rw [← hkv]
    exact hmem

theorem knownLoop_hits (kws : List String) (sp : List (String × String)) (ps : List String)
    (hdec : ∀ kv ∈ sp, (decodeURIComponentOpt (kv : String × String).2).isSome = true)
    (hhit : ∃ p ∈ ps, ∃ v, spGet sp p = some v ∧ valueMatches kws v = true) :
    knownLoop true kws sp ps = some 1 := by
  induction ps with
  | nil =>
    obtain ⟨p, hp, _⟩ := hhit
    exact absurd hp (List.not_mem_nil p)
  | cons q rest ih =>
    obtain ⟨p, hp, v, hv, hm⟩ := hhit
    rw [knownLoop]
    cases hg : spGet sp q with
    | none =>
      refine ih ?_
      rcases List.mem_cons.mp hp with rfl | hp'
      · rw [hg] at hv; cases hv
      · exact ⟨p, hp', v, hv, hm⟩
    | some v' =>
      have hd := hdec (q, v') (spGet_mem sp q v' hg)
      cases hdc : decodeURIComponentOpt v' with
      | none => rw [hdc] at hd; simp at hd
      | some d =>
        by_cases hmatch :
            (kws.any fun s => hasSubstr (toLowerStr (plusToSpace d)) (toLowerStr s)) = true
        · dsimp only
          rw [hdc]
          simp [hmatch]
        · dsimp only
          rw [hdc]
          dsimp only
          rw [if_neg hmatch]
          refine ih ?_
          rcases List.mem_cons.mp hp with rfl | hp'
          · exfalso
            rw [hg] at hv
            injection hv with hvv
            subst hvv
            rw [valueMatches, decodeParamValue, hdc] at hm
            simp at hm
            exact hmatch (List.any_eq_true.mpr hm)
          · exact ⟨p, hp', v, hv, hm⟩

theorem checkUrl_known_close (url : String) (kws : List String)
    (sp : List (String × String)) (p v : String)
    (hparse : parseURL url = some sp)
    (hdec : ∀ kv ∈ sp, (decodeURIComponentOpt (kv : String × String).2).isSome = true)
    (hp : p ∈ knownParams) (hv : spGet sp p = some v)
    (hvm : valueMatches kws v = true) :
    1 ≤ checkUrlForStrings true true kws url := by
  by_cases hr : rawMatches kws url = true
  · rw [checkUrlForStrings, if_neg (by simp), if_pos hr]
    exact Nat.le_refl 1
  · rw [checkUrlForStrings, if_neg (by simp), if_neg hr, hparse]
    dsimp only
    rw [knownLoop_hits kws sp knownParams hdec ⟨p, hp, v, hv, hvm⟩]

/-! ## Claim C6 (corrected): well-known query parameters are decoded
and matched, unless an earlier malformed value throws first -/

/-- C6 counterexample: the claim fails as stated when some parameter
value does not percent-decode.  In
`https://a.com/?q=%ZZ&query=cat+videos` the well-known parameter
`query` is present and its decoded value `"cat videos"` contains the
keyword, but the known-parameter loop reaches `q` first,
`decodeURIComponent("%ZZ")` throws, the outer `try` swallows the
exception (src/main.ts lines 264, 298-300), and the checker makes no
close request at all: `query` is never decoded or matched. -/
theorem checkUrl_malformed_escape_skips_match :
    parseURL "https://a.com/?q=%ZZ&query=cat+videos" =
      some [("q", "%ZZ"), ("query", "cat videos")] ∧
    "query" ∈ knownParams ∧
    spGet [("q", "%ZZ"), ("query", "cat videos")] "query" = some "cat videos" ∧
    decodeParamValue "cat videos" = some "cat videos" ∧
    hasSubstr "cat videos" (toLowerStr "cat videos") = true ∧
    decodeURIComponentOpt "%ZZ" = none ∧
    checkUrlForStrings true true ["cat videos"] "https://a.com/?q=%ZZ&query=cat+videos" = 0 := by
  refine ⟨by decide, by decide, by decide, by decide, by decide, by decide, by decide⟩

/-- C6 amended: for a parseable URL all of whose parameter values
percent-decode (if any value has a malformed percent-escape, the
`decodeURIComponent` call on it throws inside the loop and aborts all
further matching with no close request, as the counterexample shows),
the value of a present well-known parameter
(`q, query, search, text, term, p, keyword`) is percent-decoded, has
each `'+'` replaced by a space and is lower-cased (this pipeline is
`decodeParamValue`), and is substring-matched against every keyword: a
match on the decoded value of any present well-known parameter forces
the checker to request a close.  In particular
`https://example.com/search?q=cat+videos` with keyword set `videos`
has parameter `q` with decoded value `cat videos` and is closed. -/
theorem checkUrl_knownParam_decode :
    (∀ url kws sp p v dv,
      parseURL url = some sp →
      (∀ kv ∈ sp, (decodeURIComponentOpt (kv : String × String).2).isSome = true) →
      p ∈ knownParams → spGet sp p = some v →
      decodeParamValue v = some dv →
      (∃ kw ∈ kws, hasSubstr dv (toLowerStr kw) = true) →
      1 ≤ checkUrlForStrings true true kws url ∧ valueMatches kws v = true) ∧
    (parseURL "https://example.com/search?q=cat+videos" = some [("q", "cat videos")] ∧
      decodeParamValue "cat videos" = some "cat videos" ∧
      checkUrlForStrings true true ["videos"] "https://example.com/search?q=cat+videos" = 1) := by
  constructor
  · intro url kws sp p v dv hparse hdec hp hv hdv hm
    have hvm : valueMatches kws v = true := by
      rw [valueMatches, hdv]
      exact List.any_eq_true.mpr hm
    exact ⟨checkUrl_known_close url kws sp p v hparse hdec hp hv hvm, hvm⟩
  · exact ⟨by decide, by decide, by decide⟩

/-- C6 witness: the claim's own example, with every hypothesis checked
at the concrete input. -/
theorem checkUrl_knownParam_decode_witness :
    1 ≤ checkUrlForStrings true true ["videos"] "https://example.com/search?q=cat+videos" ∧
    valueMatches ["videos"] "cat videos" = true :=
  checkUrl_knownParam_decode.1 "https://example.com/search?q=cat+videos" ["videos"]
    [("q", "cat videos")] "q" "cat videos" "cat videos"
    (by decide) (by decide) (by decide) (by decide) (by decide) (by decide)
